import Mathlib

/-!
Shallow embedding of the nom024_Airflow ingestion pipeline
(src/tmp/url.py, src/tmp/html.py, src/tmp/zip.py, src/tmp/downloader.py,
src/tmp/database_loader.py, src/tmp/spreadsheet/pipeline.py,
src/tmp/spreadsheet/transform.py, src/tmp/nacionalidades.py).

Strings are modelled as lists of characters; pandas DataFrames as a `Table`
of named columns over rows of nullable cells (`none` = NaN); the sqlite
store as an association list of named tables.  The URL functions of the
source delegate to CPython `urllib.parse`; that library is embedded below
following the CPython 3.x implementation of `urlsplit`, `urlparse`,
`urljoin`, restricted to ASCII input (the model omits the NFKC netloc
check and the bracketed-host validation added in CPython 3.11, both of
which only reject additional inputs; the long-standing unbalanced-bracket
ValueError is modelled).
-/

namespace NomPipeline

/-! ### Character-list helpers mirroring Python str methods -/

/-- Python `_UNSAFE_URL_BYTES_TO_REMOVE`: tab, CR and LF are removed from a
URL before parsing (`url.replace(b, "")`). -/
def removeTabCrLf (l : List Char) : List Char :=
  l.filter (fun c => !(c = Char.ofNat 9 || c = Char.ofNat 13 || c = Char.ofNat 10))

/-- Python `url.lstrip(_WHATWG_C0_CONTROL_OR_SPACE)`: drop leading C0
control characters and spaces (code points 0x00-0x20). -/
def dropC0Space (l : List Char) : List Char :=
  l.dropWhile (fun c => c.toNat ≤ 0x20)

/-- Python `scheme.strip(_WHATWG_C0_CONTROL_OR_SPACE)`. -/
def stripC0Space (l : List Char) : List Char :=
  ((dropC0Space l).reverse.dropWhile (fun c => c.toNat ≤ 0x20)).reverse

/-- Characters allowed in a URL scheme (`scheme_chars` in urllib.parse). -/
def isSchemeChar (c : Char) : Bool :=
  c.isAlpha || c.isDigit || c = '+' || c = '-' || c = '.'

/-- Python `str.lower`, ASCII fragment. -/
def lowerAscii (l : List Char) : List Char :=
  l.map Char.toLower

/-- Python `s.split(sep, 1)[0]` for a one-character separator: the part of
`l` before the first occurrence of `d` (all of `l` if absent). -/
def beforeFirst (d : Char) (l : List Char) : List Char :=
  l.takeWhile (fun c => c ≠ d)

/-- The part of `l` after the first occurrence of `d` (empty if absent). -/
def afterFirst (d : Char) (l : List Char) : List Char :=
  (l.dropWhile (fun c => c ≠ d)).drop 1

/-- Python `str.split` on a one-character separator; `[] ↦ [[]]` just as
`"".split('/') == ['']`. -/
def splitOnChar (d : Char) : List Char → List (List Char)
  | [] => [[]]
  | c :: rest =>
    match splitOnChar d rest with
    | [] => if c = d then [[], []] else [[c]]
    | h :: t => if c = d then [] :: h :: t else (c :: h) :: t

/-- Python `sep.join` for a one-character separator. -/
def joinChar (d : Char) (l : List (List Char)) : List Char :=
  List.intercalate [d] l

/-! ### urllib.parse model -/

/-- Result of `urlsplit` (scheme, netloc, path, query, fragment). -/
structure SplitResult where
  scheme : List Char
  netloc : List Char
  path : List Char
  query : List Char
  fragment : List Char
deriving Repr, DecidableEq

/-- Result of `urlparse` (adds the params component split out of the path). -/
structure ParseResult where
  scheme : List Char
  netloc : List Char
  path : List Char
  params : List Char
  query : List Char
  fragment : List Char
deriving Repr, DecidableEq

/-- The one ValueError the model raises: `Invalid IPv6 URL`, raised by
`urlsplit` when the netloc contains `[` without `]` or vice versa. -/
inductive UrlError where
  | invalidIPv6
deriving Repr, DecidableEq

/-- CPython `urlsplit` scheme detection: the text before the first `:` is a
scheme iff the `:` is not first, the first character is an ASCII letter and
every character before the `:` is a scheme character; the scheme is
lowercased. -/
def splitScheme (url : List Char) : Option (List Char × List Char) :=
  match url.findIdx? (fun c => c = ':') with
  | none => none
  | some i =>
    if 0 < i ∧ (url.headD ' ').isAlpha = true ∧ (url.take i).all isSchemeChar = true then
      some (lowerAscii (url.take i), url.drop (i + 1))
    else none

/-- Delimiters ending the netloc in `_splitnetloc`. -/
def isNetlocEnd (c : Char) : Bool :=
  c = '/' || c = '?' || c = '#'

/-- The part of CPython `urlsplit` after scheme extraction: netloc split
(with the unbalanced-bracket ValueError), fragment split, query split. -/
def urlsplitTail (scheme rest : List Char) : Except UrlError SplitResult :=
  if rest.take 2 = ['/', '/'] then
    if (((rest.drop 2).takeWhile (fun c => !isNetlocEnd c)).contains '[' &&
        !((rest.drop 2).takeWhile (fun c => !isNetlocEnd c)).contains ']') ||
       (((rest.drop 2).takeWhile (fun c => !isNetlocEnd c)).contains ']' &&
        !((rest.drop 2).takeWhile (fun c => !isNetlocEnd c)).contains '[') then
      .error .invalidIPv6
    else
      .ok ⟨scheme, (rest.drop 2).takeWhile (fun c => !isNetlocEnd c),
           beforeFirst '?' (beforeFirst '#' ((rest.drop 2).dropWhile (fun c => !isNetlocEnd c))),
           afterFirst '?' (beforeFirst '#' ((rest.drop 2).dropWhile (fun c => !isNetlocEnd c))),
           afterFirst '#' ((rest.drop 2).dropWhile (fun c => !isNetlocEnd c))⟩
  else
    .ok ⟨scheme, [], beforeFirst '?' (beforeFirst '#' rest),
         afterFirst '?' (beforeFirst '#' rest), afterFirst '#' rest⟩

/-- CPython `urlsplit(url, scheme, allow_fragments=True)`: strip unsafe
bytes and leading C0 controls, extract the scheme (falling back to the
default), then split netloc, fragment and query. -/
def urlsplitCore (url0 : List Char) (defaultScheme : List Char) : Except UrlError SplitResult :=
  match splitScheme (removeTabCrLf (dropC0Space url0)) with
  | some p => urlsplitTail p.1 p.2
  | none => urlsplitTail (removeTabCrLf (stripC0Space defaultScheme))
      (removeTabCrLf (dropC0Space url0))

/-- `uses_params` from urllib.parse. -/
def uses_params : List (List Char) :=
  ["", "ftp", "hdl", "prospero", "http", "imap", "https", "shttp", "rtsp",
   "rtspu", "sip", "sips", "mms", "sftp", "tel"].map String.data

/-- `uses_relative` from urllib.parse. -/
def uses_relative : List (List Char) :=
  ["", "ftp", "http", "gopher", "nntp", "imap", "wais", "file", "https",
   "shttp", "mms", "prospero", "rtsp", "rtspu", "sftp", "svn", "svn+ssh",
   "ws", "wss"].map String.data

/-- `uses_netloc` from urllib.parse. -/
def uses_netloc : List (List Char) :=
  ["", "ftp", "http", "gopher", "nntp", "telnet", "imap", "wais", "file",
   "mms", "https", "shttp", "snews", "prospero", "rtsp", "rtspu", "rsync",
   "svn", "svn+ssh", "sftp", "nfs", "git", "git+ssh", "ws", "wss",
   "itms-services"].map String.data

/-- CPython `_splitparams`: split `;params` off the final path segment. -/
def splitparams (url : List Char) : List Char × List Char :=
  if url.contains '/' then
    let seg := (url.reverse.takeWhile (fun c => c ≠ '/')).reverse
    let pre := (url.reverse.dropWhile (fun c => c ≠ '/')).reverse
    if seg.contains ';' then (pre ++ beforeFirst ';' seg, afterFirst ';' seg)
    else (url, [])
  else if url.contains ';' then (beforeFirst ';' url, afterFirst ';' url)
  else (url, [])

/-- CPython `urlparse(url, scheme, allow_fragments=True)`. -/
def urlparseCore (url : List Char) (defaultScheme : List Char) : Except UrlError ParseResult :=
  match urlsplitCore url defaultScheme with
  | .error e => .error e
  | .ok s =>
    if uses_params.contains s.scheme && s.path.contains ';' then
      let pp := splitparams s.path
      .ok ⟨s.scheme, s.netloc, pp.1, pp.2, s.query, s.fragment⟩
    else
      .ok ⟨s.scheme, s.netloc, s.path, [], s.query, s.fragment⟩

/-- CPython `urlunsplit`. -/
def urlunsplitCore (r : SplitResult) : List Char :=
  let u0 := r.path
  let u1 :=
    if r.netloc ≠ [] ∨ (u0 ≠ [] ∧ u0.take 2 = ['/', '/']) then
      ('/' :: '/' :: r.netloc) ++ (if u0 ≠ [] ∧ u0.take 1 ≠ ['/'] then '/' :: u0 else u0)
    else u0
  let u2 := if r.scheme ≠ [] then r.scheme ++ ':' :: u1 else u1
  let u3 := if r.query ≠ [] then u2 ++ '?' :: r.query else u2
  if r.fragment ≠ [] then u3 ++ '#' :: r.fragment else u3

/-- CPython `urlunparse`. -/
def urlunparseCore (r : ParseResult) : List Char :=
  let p := if r.params ≠ [] then r.path ++ ';' :: r.params else r.path
  urlunsplitCore ⟨r.scheme, r.netloc, p, r.query, r.fragment⟩

/-- Segment resolution loop of CPython `urljoin` (`resolved_path`), with the
accumulator kept reversed so that `append` is cons and `pop` is tail. -/
def resolveSegsAux : List (List Char) → List (List Char) → List (List Char)
  | acc, [] => acc.reverse
  | acc, seg :: rest =>
    if seg = ['.', '.'] then resolveSegsAux (acc.drop 1) rest
    else if seg = ['.'] then resolveSegsAux acc rest
    else resolveSegsAux (seg :: acc) rest

/-- CPython `urljoin` segment resolution including the trailing-`/`
post-processing step. -/
def resolveSegs (segments : List (List Char)) : List (List Char) :=
  let r := resolveSegsAux [] segments
  if segments.getLast? = some ['.'] ∨ segments.getLast? = some ['.', '.'] then
    r ++ [[]]
  else r

/-- CPython `segments[1:-1] = filter(None, segments[1:-1])`: drop empty
segments other than the first and the last. -/
def filterMidAux : List (List Char) → List (List Char)
  | [] => []
  | [a] => [a]
  | a :: rest => if a = [] then filterMidAux rest else a :: filterMidAux rest

/-- Keep the first segment, filter empties from the middle, keep the last. -/
def filterMiddle : List (List Char) → List (List Char)
  | [] => []
  | [a] => [a]
  | a :: rest => a :: filterMidAux rest

/-- CPython `urljoin(base, url)`. -/
def urljoinCore (base url : List Char) : Except UrlError (List Char) :=
  if base = [] then .ok url
  else if url = [] then .ok base
  else
    match urlparseCore base [] with
    | .error e => .error e
    | .ok b =>
      match urlparseCore url b.scheme with
      | .error e => .error e
      | .ok u =>
        if u.scheme ≠ b.scheme ∨ uses_relative.contains u.scheme = false then .ok url
        else if uses_netloc.contains u.scheme = true ∧ u.netloc ≠ [] then
          .ok (urlunparseCore ⟨u.scheme, u.netloc, u.path, u.params, u.query, u.fragment⟩)
        else
          let netloc1 := if uses_netloc.contains u.scheme = true then b.netloc else u.netloc
          if u.path = [] ∧ u.params = [] then
            let q := if u.query = [] then b.query else u.query
            .ok (urlunparseCore ⟨u.scheme, netloc1, b.path, b.params, q, u.fragment⟩)
          else
            let baseParts0 := splitOnChar '/' b.path
            let baseParts :=
              if baseParts0.getLast? ≠ some [] then baseParts0.dropLast else baseParts0
            let segments :=
              if u.path.take 1 = ['/'] then splitOnChar '/' u.path
              else filterMiddle (baseParts ++ splitOnChar '/' u.path)
            let joined := joinChar '/' (resolveSegs segments)
            let path1 := if joined = [] then ['/'] else joined
            .ok (urlunparseCore ⟨u.scheme, netloc1, path1, u.params, u.query, u.fragment⟩)

/-! ### src/tmp/url.py -/

/-- `resolve_relative_url(base_url, relative_url) = urljoin(base_url,
relative_url)` (src/tmp/url.py).  The `Except` carries the ValueError that
`urlsplit` can raise; on every other input the function totally returns a
string. -/
def resolve_relative_url (base_url relative_url : String) : Except UrlError String :=
  (urljoinCore base_url.data relative_url.data).map (fun l => ⟨l⟩)

/-- `is_valid_url(url)` (src/tmp/url.py): `urlparse` succeeds and both the
scheme and the netloc are nonempty (the `except` branch returns False). -/
def is_valid_url (url : String) : Bool :=
  match urlparseCore url.data [] with
  | .ok r => !r.scheme.isEmpty && !r.netloc.isEmpty
  | .error _ => false

/-- Recomposition of a parsed URL: what `urljoin` returns for an absolute
reference of the same scheme as the base.  Used to express "unchanged aside
from normalization". -/
def normalizeUrl (u : String) : String :=
  match urlparseCore u.data [] with
  | .ok r => ⟨urlunparseCore r⟩
  | .error _ => u

/-! ### src/tmp/zip.py -/

/-- The spreadsheet-entry test of `extract_spreadsheet_from_zip`:
`file_name.lower().endswith(('.xlsx', '.xls'))`. -/
def isSpreadsheetEntry (name : List Char) : Bool :=
  ".xlsx".data.isSuffixOf (lowerAscii name) || ".xls".data.isSuffixOf (lowerAscii name)

/-- `extract_spreadsheet_from_zip(zip_file_path, extraction_directory,
extract_first_only)` (src/tmp/zip.py), abstracted over the archive entry
list.  First component: the returned path (`extraction_directory /
file_name` for the first matching entry when `extract_first_only`, the
final `return None` otherwise).  Second component: the paths extracted to
disk by `zip_ref.extract`, in archive order. -/
def extract_spreadsheet_from_zip (dir : List Char) (extract_first_only : Bool) :
    List (List Char) → Option (List Char) × List (List Char)
  | [] => (none, [])
  | n :: rest =>
    if isSpreadsheetEntry n then
      let p := dir ++ '/' :: n
      if extract_first_only then (some p, [p])
      else
        let r := extract_spreadsheet_from_zip dir extract_first_only rest
        (r.1, p :: r.2)
    else extract_spreadsheet_from_zip dir extract_first_only rest

/-! ### pandas DataFrame model -/

/-- A pandas cell; `none` models NaN/null. -/
abbrev Cell := Option String

/-- A pandas DataFrame: named columns over rows of cells (row-major). -/
structure Table where
  cols : List String
  rows : List (List Cell)
deriving Repr, DecidableEq

/-- Index of a named column. -/
def Table.colIdx (t : Table) (name : String) : Option Nat :=
  t.cols.findIdx? (fun c => c = name)

/-- Cell of a row at a column index (out-of-range reads as null). -/
def cellAt (r : List Cell) (j : Nat) : Cell :=
  r.getD j none

/-- The values of a named column, top to bottom. -/
def Table.column (t : Table) (name : String) : List Cell :=
  match t.colIdx name with
  | some j => t.rows.map (fun r => cellAt r j)
  | none => []

/-- A row survives `dropna(how='all')` iff some cell is non-null. -/
def rowNonEmpty (r : List Cell) : Bool :=
  r.any (fun c => c.isSome)

/-- A column survives `dropna(axis=1, how='all')` iff some row has a
non-null cell there. -/
def colNonEmpty (rows : List (List Cell)) (j : Nat) : Bool :=
  rows.any (fun r => (cellAt r j).isSome)

/-- Every row has exactly one cell per column (true of any DataFrame). -/
def Table.WF (t : Table) : Prop :=
  ∀ r ∈ t.rows, r.length = t.cols.length

/-! ### src/tmp/spreadsheet/transform.py -/

/-- `remove_empty_rows_and_columns(df)`: `dropna(how='all')` then
`dropna(axis=1, how='all')`, in that order. -/
def remove_empty_rows_and_columns (t : Table) : Table :=
  let rows1 := t.rows.filter rowNonEmpty
  let keep := (List.range t.cols.length).filter (colNonEmpty rows1)
  ⟨keep.map (fun j => t.cols.getD j ""), rows1.map (fun r => keep.map (fun j => cellAt r j))⟩

/-- pandas scalar column assignment `df[name] = value`: overwrite the
column in place when the name exists, else append a new column on the
right; the scalar broadcasts to every row. -/
def Table.setColumn (t : Table) (name : String) (v : Cell) : Table :=
  match t.colIdx name with
  | some j => ⟨t.cols, t.rows.map (fun r => r.set j v)⟩
  | none => ⟨t.cols ++ [name], t.rows.map (fun r => r ++ [v])⟩

/-- `add_metadata_columns(df, metadata)` (src/tmp/spreadsheet/transform.py):
assign every metadata key as a constant column, then add the default
timestamp column `fecha_procesamiento` only when not already present.
`now` stands for `pd.Timestamp.now().isoformat()`. -/
def add_metadata_columns (t : Table) (metadata : List (String × Cell)) (now : String) : Table :=
  let t1 := metadata.foldl (fun acc kv => acc.setColumn kv.1 kv.2) t
  if t1.cols.contains "fecha_procesamiento" then t1
  else t1.setColumn "fecha_procesamiento" (some now)

/-! ### src/tmp/database_loader.py -/

/-- The `if_exists` policy of `DataFrame.to_sql`. -/
inductive Policy where
  | failIfExists
  | replace
  | append
deriving Repr, DecidableEq

/-- The sqlite database file: named tables in creation order. -/
abbrev Store := List (String × Table)

/-- Errors `save_dataframe_to_sqlite` can raise: the explicit ValueError on
an empty DataFrame, and the errors `to_sql` raises for `if_exists='fail'`
on an existing table or an append with incompatible columns. -/
inductive SaveError where
  | emptyInput
  | tableExists
  | schemaMismatch
deriving Repr, DecidableEq

/-- Outcome of a save: the store is carried on the error path too, so that
"the store is unchanged" is expressible. -/
inductive SaveResult where
  | ok (s : Store)
  | err (e : SaveError) (s : Store)
deriving DecidableEq

def storeLookup (s : Store) (name : String) : Option Table :=
  (s.find? (fun p => p.1 = name)).map Prod.snd

def storeUpdate (s : Store) (name : String) (t : Table) : Store :=
  s.map (fun p => if p.1 = name then (name, t) else p)

/-- pandas `df.empty`: true iff any axis has length 0. -/
def Table.emptyDf (t : Table) : Bool :=
  t.rows.isEmpty || t.cols.isEmpty

/-- `save_dataframe_to_sqlite(dataframe, database_path, table_name,
if_exists)` (src/tmp/database_loader.py).  The empty-DataFrame ValueError
is raised before the parent directory is created and before the sqlite
connection is opened, so on that path the store is returned untouched. -/
def save_dataframe_to_sqlite (df : Table) (store : Store) (table_name : String)
    (if_exists : Policy) : SaveResult :=
  if df.emptyDf then .err .emptyInput store
  else
    match storeLookup store table_name, if_exists with
    | none, _ => .ok (store ++ [(table_name, df)])
    | some _, .failIfExists => .err .tableExists store
    | some _, .replace => .ok (storeUpdate store table_name df)
    | some old, .append =>
      if old.cols = df.cols then
        .ok (storeUpdate store table_name ⟨old.cols, old.rows ++ df.rows⟩)
      else .err .schemaMismatch store

/-! ### src/tmp/nacionalidades.py -/

/-- Python `str(x)` applied to a cell by `astype(str)`: NaN prints `nan`. -/
def cellToStr (c : Cell) : String :=
  match c with
  | none => "nan"
  | some s => s

/-- Python `str.strip()` (ASCII-whitespace model). -/
def pystrip (s : String) : String :=
  ⟨((s.data.dropWhile Char.isWhitespace).reverse.dropWhile Char.isWhitespace).reverse⟩

/-- Python `str.zfill(w)`: left-pad with zeros to width `w`, keeping a
leading sign in front of the padding. -/
def zfill (s : String) (w : Nat) : String :=
  match s.data with
  | c :: rest =>
    if c = '+' ∨ c = '-' then ⟨c :: (List.replicate (w - 1 - rest.length) '0' ++ rest)⟩
    else ⟨List.replicate (w - s.data.length) '0' ++ s.data⟩
  | [] => ⟨List.replicate w '0'⟩

/-- Apply `f` to every cell of the named column, when present
(`if col in cleaned_df.columns`). -/
def Table.mapColumn (t : Table) (name : String) (f : Cell → Cell) : Table :=
  match t.colIdx name with
  | some j => ⟨t.cols, t.rows.map (fun r => r.set j (f (cellAt r j)))⟩
  | none => t

/-- pandas `dropna(subset=...)`: keep rows whose cells in the subset
columns are all non-null; `none` models the KeyError pandas raises when a
subset column is missing. -/
def dropnaSubsetRows (t : Table) (subset : List String) : Option Table :=
  if subset.all (fun c => t.cols.contains c) then
    let js := subset.filterMap (fun c => t.colIdx c)
    some ⟨t.cols, t.rows.filter (fun r => js.all (fun j => (cellAt r j).isSome))⟩
  else none

/-- Errors of the nacionalidades transform: the KeyError from
`dropna(subset=...)` on a missing column, and the ValueError
`validate_nationality_data` raises for missing required columns. -/
inductive TransformError where
  | keyError
  | missingColumns
deriving Repr, DecidableEq

def NATIONALITIES_BASE_URL : String :=
  "http://www.dgis.salud.gob.mx/contenidos/intercambio/nacionalidades_gobmx.html"

/-- `clean_nationality_data(df)` (src/tmp/nacionalidades.py): drop all-null
rows; `astype(str).str.strip()` on the three text columns when present;
`astype(str).str.zfill(3)` on `codigo_pais` when present;
`dropna(subset=['codigo_pais', 'pais'])`; assign the `fecha_procesamiento`
and `fuente` metadata columns.  `now` stands for
`datetime.now().isoformat()`. -/
def clean_nationality_data (t : Table) (now : String) : Except TransformError Table :=
  let t1 : Table := ⟨t.cols, t.rows.filter rowNonEmpty⟩
  let t2 := ["codigo_pais", "pais", "clave_nacionalidad"].foldl
    (fun acc c => acc.mapColumn c (fun cell => some (pystrip (cellToStr cell)))) t1
  let t3 := t2.mapColumn "codigo_pais" (fun cell => some (zfill (cellToStr cell) 3))
  match dropnaSubsetRows t3 ["codigo_pais", "pais"] with
  | none => .error .keyError
  | some t4 =>
    .ok ((t4.setColumn "fecha_procesamiento" (some now)).setColumn
      "fuente" (some NATIONALITIES_BASE_URL))

/-- `drop_duplicates(subset=[col], keep='first')`: keep the first row for
each key value. -/
def dropDupBySeen (j : Nat) : List (List Cell) → List Cell → List (List Cell)
  | [], _ => []
  | r :: rest, seen =>
    if seen.contains (cellAt r j) then dropDupBySeen j rest seen
    else r :: dropDupBySeen j rest (cellAt r j :: seen)

def Table.dropDupBy (t : Table) (name : String) : Table :=
  match t.colIdx name with
  | some j => ⟨t.cols, dropDupBySeen j t.rows []⟩
  | none => t

/-- `validate_nationality_data(df)` (src/tmp/nacionalidades.py): raise
ValueError when `codigo_pais` or `pais` is missing; drop duplicate
`codigo_pais` rows keeping the first occurrence (the duplicate branch is
equivalent to dropping unconditionally); the invalid-code regex check only
logs and has no effect on the data. -/
def validate_nationality_data (t : Table) : Except TransformError Table :=
  if ["codigo_pais", "pais"].all (fun c => t.cols.contains c) then
    .ok (t.dropDupBy "codigo_pais")
  else .error .missingColumns

/-- Python string comparison: lexicographic by Unicode code point.
(Equivalent to the order Mathlib puts on `String`, but defined by
structural recursion so that it evaluates inside the kernel.) -/
def charListLe : List Char → List Char → Bool
  | [], _ => true
  | _ :: _, [] => false
  | a :: as, b :: bs => if a = b then charListLe as bs else decide (a.toNat < b.toNat)

/-- The row order `sort_values(col)` uses on one column: ascending with
nulls placed last (`na_position='last'`). -/
def cellLe (a b : Cell) : Bool :=
  match a, b with
  | none, none => true
  | none, some _ => false
  | some _, none => true
  | some x, some y => charListLe x.data y.data

/-- The strict version of `cellLe`. -/
def cellLt (a b : Cell) : Bool :=
  cellLe a b && !cellLe b a

/-- Insertion into a sorted list (used to model `sort_values`; the claims
proved below depend only on sortedness, not on the sorting algorithm). -/
def insertLe {α : Type} (le : α → α → Bool) (a : α) : List α → List α
  | [] => [a]
  | b :: rest => if le a b then a :: b :: rest else b :: insertLe le a rest

def insertionSort {α : Type} (le : α → α → Bool) : List α → List α
  | [] => []
  | a :: rest => insertLe le a (insertionSort le rest)

/-- pandas `df.sort_values(col).reset_index(drop=True)` on one column. -/
def Table.sortValuesBy (t : Table) (name : String) : Table :=
  match t.colIdx name with
  | some j => ⟨t.cols, insertionSort (fun r s => cellLe (cellAt r j) (cellAt s j)) t.rows⟩
  | none => t

/-- `transform_nationalities_data(df)` (src/tmp/nacionalidades.py):
clean, validate, then sort by `codigo_pais`. -/
def transform_nationalities_data (t : Table) (now : String) : Except TransformError Table :=
  match clean_nationality_data t now with
  | .error e => .error e
  | .ok t1 =>
    match validate_nationality_data t1 with
    | .error e => .error e
    | .ok t2 => .ok (t2.sortValuesBy "codigo_pais")

/-! ### src/tmp/spreadsheet/pipeline.py -/

def ZIP_EXTENSIONS : List String := [".zip"]

def EXCEL_EXTENSIONS : List String := [".xls", ".xlsx"]

/-- `check_url_has_extension(url, extensions)`:
`urlparse(url).path.lower().endswith(extensions)`.  The `Except` carries
the ValueError `urlparse` can raise. -/
def check_url_has_extension (url : String) (extensions : List String) : Except UrlError Bool :=
  (urlparseCore url.data []).map
    (fun r => (extensions.map String.data).any (fun e => e.isSuffixOf (lowerAscii r.path)))

/-- An anchor element abstracted to its `href` attribute value
(`element.get("href")`, which is None when the attribute is absent). -/
abbrev Anchor := Option String

/-- Transport or HTTP-status failure of the page fetch
(`requests.RequestException`, raised by `raise_for_status` on non-2xx). -/
inductive FetchError where
  | requestException
deriving Repr, DecidableEq

/-- The outcome of `extract_html_elements_by_tag(page_url, "a")`
(src/tmp/html.py): the anchors of the fetched page, or the fetch error it
raises to its caller. -/
abbrev FetchResult := Except FetchError (List Anchor)

/-- The anchor loop of `find_downloadable_files_in_page`.  An exception
raised by `resolve_relative_url` or `check_url_has_extension` escapes the
loop into the enclosing `except`, which returns the candidates accumulated
so far. -/
def findFilesLoop (page_url : String) : List Anchor → List String → List String
  | [], acc => acc.reverse
  | a :: rest, acc =>
    match a with
    | none => findFilesLoop page_url rest acc
    | some href =>
      if href = "" then findFilesLoop page_url rest acc
      else
        match resolve_relative_url page_url href with
        | .error _ => acc.reverse
        | .ok file_url =>
          if file_url = "" then findFilesLoop page_url rest acc
          else
            match check_url_has_extension file_url ZIP_EXTENSIONS with
            | .error _ => acc.reverse
            | .ok true => findFilesLoop page_url rest (file_url :: acc)
            | .ok false =>
              match check_url_has_extension file_url EXCEL_EXTENSIONS with
              | .error _ => acc.reverse
              | .ok true => findFilesLoop page_url rest (file_url :: acc)
              | .ok false => findFilesLoop page_url rest acc

/-- `find_downloadable_files_in_page(page_url)`
(src/tmp/spreadsheet/pipeline.py), abstracted over the fetch outcome.  The
whole body sits in a `try` whose `except` logs and returns the accumulated
list, so the function returns `.ok` on every input; the `Except` result
type records that no error is ever propagated to the caller. -/
def find_downloadable_files_in_page (page_url : String) (fetched : FetchResult) :
    Except FetchError (List String) :=
  match fetched with
  | .error _ => .ok []
  | .ok anchors => .ok (findFilesLoop page_url anchors [])

/-- The classification in the candidate loop of
`process_web_page_to_database`: `some (download url)` when the candidate
has a zip or excel extension (zip tested first), `none` when the loop
`continue`s past it or the extension check raised (caught by the
per-candidate `try`).  `download` abstracts `process_zip_file` /
`process_excel_file`, which catch their own errors and return the local
spreadsheet path or None. -/
def candidateDownload (download : String → Option String) (url : String) :
    Option (Option String) :=
  match check_url_has_extension url ZIP_EXTENSIONS with
  | .error _ => none
  | .ok true => some (download url)
  | .ok false =>
    match check_url_has_extension url EXCEL_EXTENSIONS with
    | .error _ => none
    | .ok true => some (download url)
    | .ok false => none

/-- The candidate loop of `process_web_page_to_database`: `processed` is
the running `processed_file` variable; the second component is the list of
candidates for which a download was attempted, in order. -/
def processLoop (download : String → Option String) (fileExists : String → Bool)
    (persist : String → Bool) :
    List String → Option String → Option String × List String
  | [], processed => (processed, [])
  | url :: rest, processed =>
    match candidateDownload download url with
    | none => processLoop download fileExists persist rest processed
    | some dl =>
      let processed1 :=
        match dl with
        | some p => if fileExists p && persist p then some p else processed
        | none => processed
      let r := processLoop download fileExists persist rest processed1
      (r.1, url :: r.2)

/-- `process_web_page_to_database(page_url, download_directory)`
(src/tmp/spreadsheet/pipeline.py), abstracted over the page-fetch outcome
and per-candidate oracles: `download url` is the local path produced by
`process_zip_file`/`process_excel_file` (None on their logged failures),
`fileExists` is `excel_file.exists()`, and `persist` is the boolean result
of `process_spreadsheet_and_save_to_database`.  Returns the final
`processed_file` together with the list of candidates attempted. -/
def process_web_page_to_database (page_url : String) (fetched : FetchResult)
    (download : String → Option String) (fileExists : String → Bool)
    (persist : String → Bool) : Option String × List String :=
  match find_downloadable_files_in_page page_url fetched with
  | .error _ => (none, [])
  | .ok files =>
    if files.isEmpty then (none, [])
    else processLoop download fileExists persist files none

/-! ### Theorems -/

/-- C4: for every table with zero rows, `save_dataframe_to_sqlite` raises
the empty-input ValueError, and the relational store is unchanged: the
error is raised before any table is created or altered. -/
theorem save_empty_raises_store_unchanged
    (df : Table) (store : Store) (name : String) (p : Policy)
    (h : df.rows = []) :
    save_dataframe_to_sqlite df store name p = .err .emptyInput store := by
  simp [save_dataframe_to_sqlite, Table.emptyDf, h]

/-- Witness for C4 at a concrete nonempty store. -/
theorem save_empty_raises_store_unchanged_witness :
    (⟨["a"], []⟩ : Table).rows = [] ∧
    save_dataframe_to_sqlite ⟨["a"], []⟩ [("t", ⟨["a"], [[some "1"]]⟩)] "t" .replace
      = .err .emptyInput [("t", ⟨["a"], [[some "1"]]⟩)] :=
  ⟨rfl, save_empty_raises_store_unchanged ⟨["a"], []⟩ [("t", ⟨["a"], [[some "1"]]⟩)] "t" .replace rfl⟩

/-- C5: in first-only mode (the default), `extract_spreadsheet_from_zip`
returns the path of the first entry in archive order whose lowercased name
ends with `.xlsx` or `.xls`, preserving the entry's relative path under
the extraction directory, and returns `none` (not an error) when no entry
matches, exactly as `List.find?` does. -/
theorem extract_first_spreadsheet_first_match (dir : List Char) (names : List (List Char)) :
    (extract_spreadsheet_from_zip dir true names).1
      = (names.find? isSpreadsheetEntry).map (fun n => dir ++ '/' :: n) := by
  induction names with
  | nil => rfl
  | cons n rest ih =>
    by_cases h : isSpreadsheetEntry n = true
    · simp [extract_spreadsheet_from_zip, List.find?, h]
    · simp only [Bool.not_eq_true] at h
      simp [extract_spreadsheet_from_zip, List.find?, h, ih]

/-- C8: with `extract_first_only=False` the function extracts every
matching entry to disk (in archive order, under the extraction directory)
but falls through to the final `return None`, so the caller never receives
any extracted path. -/
theorem extract_all_mode_returns_none (dir : List Char) (names : List (List Char)) :
    (extract_spreadsheet_from_zip dir false names).1 = none ∧
    (extract_spreadsheet_from_zip dir false names).2
      = (names.filter isSpreadsheetEntry).map (fun n => dir ++ '/' :: n) := by
  induction names with
  | nil => exact ⟨rfl, rfl⟩
  | cons n rest ih =>
    by_cases h : isSpreadsheetEntry n = true
    · simpa [extract_spreadsheet_from_zip, List.filter, h] using ih
    · simp only [Bool.not_eq_true] at h
      simpa [extract_spreadsheet_from_zip, List.filter, h] using ih

/-- C3 counterexample: when the page fetch fails,
`find_downloadable_files_in_page` does not raise the error to its caller;
it catches it and returns normally with the empty candidate list. -/
theorem find_downloadable_fetch_error_counterexample :
    find_downloadable_files_in_page "http://h/page" (.error .requestException) = .ok [] ∧
    find_downloadable_files_in_page "http://h/page" (.error .requestException)
      ≠ .error .requestException := by
  exact ⟨rfl, by simp [find_downloadable_files_in_page]⟩

/-- C3 amended: on a fetch failure the whole-body `try/except` of
`find_downloadable_files_in_page` swallows the error (logging it) and
returns the candidates accumulated so far, which at that point is the
empty list; no error reaches the caller. -/
theorem find_downloadable_swallows_fetch_error (page_url : String) (e : FetchError) :
    find_downloadable_files_in_page page_url (.error e) = .ok [] := rfl

/-- The full per-candidate outcome in the orchestrator loop: the local
path when the candidate was classified, downloaded, found on disk and
persisted successfully; `none` otherwise. -/
def candidateSuccess (download : String → Option String) (fileExists : String → Bool)
    (persist : String → Bool) (url : String) : Option String :=
  match candidateDownload download url with
  | some (some p) => if fileExists p && persist p then some p else none
  | _ => none

theorem foldl_lastSome {α β : Type} (f : α → Option β) (l : List α) (acc : Option β) :
    l.foldl (fun st u => match f u with | some x => some x | none => st) acc
      = match (l.filterMap f).getLast? with | some x => some x | none => acc := by
  induction l generalizing acc with
  | nil => rfl
  | cons u rest ih =>
    cases hu : f u with
    | none => simp only [List.foldl_cons, hu, List.filterMap_cons, ih]
    | some x =>
      simp only [List.foldl_cons, hu, List.filterMap_cons, ih]
      cases hrest : (rest.filterMap f).getLast? with
      | none =>
        rcases List.getLast?_eq_none_iff.mp hrest with h
        simp [h]
      | some y =>
        rcases (List.filterMap f rest).eq_nil_or_concat with h | ⟨l₂, b, h⟩
        · rw [h] at hrest; simp at hrest
        · rw [h] at hrest ⊢
          simp only [List.concat_eq_append] at hrest ⊢
          rw [List.getLast?_concat] at hrest
          rw [← List.cons_append, List.getLast?_concat, hrest]

theorem processLoop_eq (download : String → Option String) (fileExists : String → Bool)
    (persist : String → Bool) (files : List String) (acc : Option String) :
    processLoop download fileExists persist files acc
      = (match (files.filterMap (candidateSuccess download fileExists persist)).getLast? with
          | some x => some x | none => acc,
         files.filter (fun u => (candidateDownload download u).isSome)) := by
  induction files generalizing acc with
  | nil => rfl
  | cons url rest ih =>
    cases hc : candidateDownload download url with
    | none =>
      simp only [processLoop, hc, ih, List.filterMap_cons, List.filter_cons,
        candidateSuccess, hc, Option.isSome_none, Bool.false_eq_true, if_false]
    | some dl =>
      cases dl with
      | none =>
        simp only [processLoop, hc, ih, List.filterMap_cons, List.filter_cons,
          candidateSuccess, hc, Option.isSome_some, if_true]
      | some p =>
        by_cases hp : (fileExists p && persist p) = true
        · simp only [processLoop, hc, hp, if_true, ih, List.filterMap_cons,
            List.filter_cons, candidateSuccess, hc, Option.isSome_some, if_true]
          cases hrest : (rest.filterMap (candidateSuccess download fileExists persist)).getLast? with
          | none =>
            rcases List.getLast?_eq_none_iff.mp hrest with h
            simp [h]
          | some y =>
            rcases (rest.filterMap (candidateSuccess download fileExists persist)).eq_nil_or_concat
              with h | ⟨l₂, b, h⟩
            · rw [h] at hrest; simp at hrest
            · rw [h] at hrest ⊢
              simp only [List.concat_eq_append] at hrest ⊢
              rw [List.getLast?_concat] at hrest
              rw [← List.cons_append, List.getLast?_concat, hrest]
        · simp only [Bool.not_eq_true] at hp
          simp only [processLoop, hc, hp, Bool.false_eq_true, if_false, ih,
            List.filterMap_cons, List.filter_cons, candidateSuccess, hc,
            Option.isSome_some, if_true]

/-- C1 counterexample: a page offering two candidates that both fetch,
load, transform and persist successfully.  The orchestrator attempts the
second candidate after the first has already succeeded, and the path it
reports is the second (last) one, not the first. -/
theorem process_web_page_first_success_counterexample :
    process_web_page_to_database "http://h/p" (.ok [some "/b.xlsx", some "/c.zip"])
        (fun u => some (u ++ "!loc")) (fun _ => true) (fun _ => true)
      = (some "http://h/c.zip!loc", ["http://h/b.xlsx", "http://h/c.zip"]) ∧
    (some "http://h/c.zip!loc" : Option String) ≠ some "http://h/b.xlsx!loc" :=
  ⟨rfl, by decide⟩

/-- C1 amended: the orchestrator attempts every discovered candidate with
a recognized extension, in discovery order, and does not stop at the first
success; the path it reports is that of the last successfully processed
candidate (or none). -/
theorem process_web_page_reports_last_success
    (page_url : String) (fetched : FetchResult)
    (download : String → Option String) (fileExists : String → Bool)
    (persist : String → Bool) (files : List String)
    (hfiles : find_downloadable_files_in_page page_url fetched = .ok files) :
    process_web_page_to_database page_url fetched download fileExists persist
      = ((files.filterMap (candidateSuccess download fileExists persist)).getLast?,
         files.filter (fun u => (candidateDownload download u).isSome)) := by
  unfold process_web_page_to_database
  rw [hfiles]
  by_cases h : files.isEmpty
  · rw [List.isEmpty_iff] at h
    subst h
    simp
  · simp only [h, Bool.false_eq_true, if_false, processLoop_eq]
    cases (files.filterMap (candidateSuccess download fileExists persist)).getLast? <;> rfl

/-- Witness for C1 at the counterexample's concrete inputs. -/
theorem process_web_page_reports_last_success_witness :
    process_web_page_to_database "http://h/p" (.ok [some "/b.xlsx", some "/c.zip"])
        (fun u => some (u ++ "!loc")) (fun _ => true) (fun _ => true)
      = ((["http://h/b.xlsx", "http://h/c.zip"].filterMap
            (candidateSuccess (fun u => some (u ++ "!loc")) (fun _ => true) (fun _ => true))).getLast?,
         ["http://h/b.xlsx", "http://h/c.zip"].filter
           (fun u => (candidateDownload (fun u => some (u ++ "!loc")) u).isSome)) :=
  process_web_page_reports_last_success "http://h/p" (.ok [some "/b.xlsx", some "/c.zip"])
    (fun u => some (u ++ "!loc")) (fun _ => true) (fun _ => true)
    ["http://h/b.xlsx", "http://h/c.zip"] rfl

theorem colIdx_of_mem {t : Table} {k : String} (h : k ∈ t.cols) :
    ∃ j, t.colIdx k = some j := by
  cases hf : t.colIdx k with
  | some j => exact ⟨j, rfl⟩
  | none =>
    have := List.findIdx?_eq_none_iff.mp hf k h
    simp at this

theorem colIdx_lt_length {t : Table} {k : String} {j : Nat} (h : t.colIdx k = some j) :
    j < t.cols.length :=
  (List.findIdx?_eq_some_iff_findIdx_eq.mp h).1

theorem colIdx_getElem {t : Table} {k : String} {j : Nat} (h : t.colIdx k = some j)
    (hj : j < t.cols.length) : t.cols[j] = k := by
  have h2 := (List.findIdx?_eq_some_iff_findIdx_eq.mp h).2
  have h3 := (List.findIdx_eq hj).mp h2
  simpa using h3.1

/-- C2 counterexample: a table that already has a `fuente` column, passed
to `add_metadata_columns` with metadata containing the key `fuente`.  The
assignment `df_with_metadata[key] = value` overwrites the existing
column's values. -/
theorem add_metadata_columns_no_overwrite_counterexample :
    add_metadata_columns ⟨["fuente"], [[some "a"]]⟩ [("fuente", some "b")] "T0"
      = ⟨["fuente", "fecha_procesamiento"], [[some "b", some "T0"]]⟩ ∧
    (add_metadata_columns ⟨["fuente"], [[some "a"]]⟩ [("fuente", some "b")] "T0").column "fuente"
      ≠ (⟨["fuente"], [[some "a"]]⟩ : Table).column "fuente" := by
  constructor
  · decide
  · decide

/-- C2 amended: for a metadata key `k` already present as a column,
`add_metadata_columns` overwrites that column in place with the constant
value (it does not skip it), while the values of every other existing
column are unchanged; only the default `fecha_procesamiento` timestamp
column is guarded by a presence check. -/
theorem add_metadata_columns_overwrite_semantics
    (t : Table) (k : String) (v : Cell) (now : String)
    (hwf : t.WF) (hk : k ∈ t.cols) :
    (add_metadata_columns t [(k, v)] now).column k = List.replicate t.rows.length v ∧
    ∀ c ∈ t.cols, c ≠ k →
      (add_metadata_columns t [(k, v)] now).column c = t.column c := by
  obtain ⟨j, hj⟩ := colIdx_of_mem hk
  have hjl := colIdx_lt_length hj
  have hjget := colIdx_getElem hj hjl
  have hfindk : List.findIdx? (fun c => c = k) t.cols = some j := hj
  have hstep : add_metadata_columns t [(k, v)] now
      = (let t1 : Table := ⟨t.cols, t.rows.map (fun r => r.set j v)⟩
         if t1.cols.contains "fecha_procesamiento" then t1
         else t1.setColumn "fecha_procesamiento" (some now)) := by
    simp only [add_metadata_columns, List.foldl_cons, List.foldl_nil, Table.setColumn, hj]
  rw [hstep]
  have hrowlen : ∀ r ∈ t.rows, j < r.length := by
    intro r hr; rw [hwf r hr]; exact hjl
  have hcellk : ∀ r ∈ t.rows, cellAt (r.set j v) j = v := by
    intro r hr
    simp only [cellAt, List.getD_eq_getElem?_getD]
    rw [List.getElem?_set_self (hrowlen r hr)]
    rfl
  have hcellother : ∀ (i : Nat), j ≠ i → ∀ r ∈ t.rows, cellAt (r.set j v) i = cellAt r i := by
    intro i hij r hr
    simp only [cellAt, List.getD_eq_getElem?_getD]
    rw [List.getElem?_set_ne hij]
  have hne_idx : ∀ (c : String) (i : Nat), t.colIdx c = some i → c ≠ k → j ≠ i := by
    intro c i hi hck he
    have h1 : t.cols[i]? = some c := by
      rw [List.getElem?_eq_getElem (colIdx_lt_length hi),
        colIdx_getElem hi (colIdx_lt_length hi)]
    have h2 : t.cols[j]? = some k := by
      rw [List.getElem?_eq_getElem hjl, hjget]
    rw [he, h1] at h2
    exact hck (Option.some.inj h2)
  by_cases hfp : t.cols.contains "fecha_procesamiento"
  · simp only [hfp, if_true]
    constructor
    · simp only [Table.column, Table.colIdx, hfindk, List.map_map]
      rw [List.eq_replicate_iff]
      refine ⟨by simp, ?_⟩
      intro b hb
      obtain ⟨r, hr, hrb⟩ := List.mem_map.mp hb
      simp only [Function.comp_apply] at hrb
      rw [← hrb]
      exact hcellk r hr
    · intro c hc hck
      obtain ⟨i, hi⟩ := colIdx_of_mem hc
      have hfindc : List.findIdx? (fun c0 => c0 = c) t.cols = some i := hi
      simp only [Table.column, Table.colIdx, hfindc, List.map_map]
      apply List.map_congr_left
      intro r hr
      simp only [Function.comp_apply]
      exact hcellother i (hne_idx c i hi hck) r hr
  · simp only [hfp, Bool.false_eq_true, if_false]
    have hnone : List.findIdx? (fun c0 => c0 = "fecha_procesamiento")
        (t.cols) = none := by
      rw [List.findIdx?_eq_none_iff]
      intro x hx
      simp only [decide_eq_false_iff_not]
      intro hxe
      rw [List.contains_eq_any_beq] at hfp
      simp only [Bool.not_eq_true, List.any_eq_false] at hfp
      have := hfp x hx
      simp [hxe] at this
    have happend : ∀ (c : String) (i : Nat), t.colIdx c = some i →
        List.findIdx? (fun c0 => c0 = c) (t.cols ++ ["fecha_procesamiento"]) = some i := by
      intro c i hi
      rw [List.findIdx?_append]
      have hfindc : List.findIdx? (fun c0 => c0 = c) t.cols = some i := hi
      rw [hfindc, Option.or_some]
    simp only [Table.setColumn, Table.colIdx, hnone]
    have hlenset : ∀ (i : Nat), i < t.cols.length → ∀ r ∈ t.rows,
        cellAt (r.set j v ++ [some now]) i = cellAt (r.set j v) i := by
      intro i hilen r hr
      simp only [cellAt, List.getD_eq_getElem?_getD]
      rw [List.getElem?_append]
      rw [if_pos (by rw [List.length_set, hwf r hr]; exact hilen)]
    constructor
    · simp only [Table.column, Table.colIdx, happend k j hj, List.map_map]
      rw [List.eq_replicate_iff]
      refine ⟨by simp, ?_⟩
      intro b hb
      obtain ⟨r, hr, hrb⟩ := List.mem_map.mp hb
      simp only [Function.comp_apply] at hrb
      rw [← hrb, hlenset j hjl r hr]
      exact hcellk r hr
    · intro c hc hck
      obtain ⟨i, hi⟩ := colIdx_of_mem hc
      have hfindc : List.findIdx? (fun c0 => c0 = c) t.cols = some i := hi
      simp only [Table.column, Table.colIdx, happend c i hi, hfindc, List.map_map]
      apply List.map_congr_left
      intro r hr
      simp only [Function.comp_apply]
      rw [hlenset i (colIdx_lt_length hi) r hr]
      exact hcellother i (hne_idx c i hi hck) r hr

/-- Witness for C2 at a concrete two-column table. -/
theorem add_metadata_columns_overwrite_semantics_witness :
    (add_metadata_columns ⟨["fuente", "x"], [[some "a", some "b"]]⟩
        [("fuente", some "c")] "T").column "fuente"
      = List.replicate (⟨["fuente", "x"], [[some "a", some "b"]]⟩ : Table).rows.length (some "c") ∧
    ∀ c ∈ (⟨["fuente", "x"], [[some "a", some "b"]]⟩ : Table).cols, c ≠ "fuente" →
      (add_metadata_columns ⟨["fuente", "x"], [[some "a", some "b"]]⟩
          [("fuente", some "c")] "T").column c
        = (⟨["fuente", "x"], [[some "a", some "b"]]⟩ : Table).column c :=
  add_metadata_columns_overwrite_semantics ⟨["fuente", "x"], [[some "a", some "b"]]⟩
    "fuente" (some "c") "T"
    (by intro r hr; simp only [List.mem_singleton] at hr; subst hr; rfl) (by decide)

/-- The default scheme passed to `urlsplit` is only consulted when the URL
itself carries no scheme, so a parse with empty default that produced a
nonempty scheme is insensitive to the default. -/
theorem urlsplitTail_scheme {sch rest : List Char} {s : SplitResult}
    (h : urlsplitTail sch rest = .ok s) : s.scheme = sch := by
  unfold urlsplitTail at h
  split_ifs at h <;> (injection h with h1; rw [← h1])

theorem urlsplitCore_default_irrelevant {url : List Char} {s : SplitResult}
    (h : urlsplitCore url [] = .ok s) (hs : s.scheme ≠ []) (d : List Char) :
    urlsplitCore url d = .ok s := by
  unfold urlsplitCore at h ⊢
  cases hsp : splitScheme (removeTabCrLf (dropC0Space url)) with
  | some p => simp only [hsp] at h ⊢; exact h
  | none =>
    exfalso
    simp only [hsp] at h
    exact hs (by rw [urlsplitTail_scheme h]; rfl)

/-- `urlparse` version of the default-irrelevance fact. -/
theorem urlparseCore_default_irrelevant {url : List Char} {r : ParseResult}
    (h : urlparseCore url [] = .ok r) (hs : r.scheme ≠ []) (d : List Char) :
    urlparseCore url d = .ok r := by
  unfold urlparseCore at h ⊢
  cases hsplit : urlsplitCore url [] with
  | error e => rw [hsplit] at h; exact absurd h (by simp)
  | ok s =>
    simp only [hsplit] at h
    have hscheme : s.scheme ≠ [] := by
      intro he
      split_ifs at h <;> (injection h with h3; rw [← h3] at hs; exact hs he)
    rw [urlsplitCore_default_irrelevant hsplit hscheme d]
    exact h

/-- In urllib.parse, every scheme in `uses_relative` is also in
`uses_netloc`. -/
theorem uses_relative_subset_netloc : ∀ s ∈ uses_relative, s ∈ uses_netloc := by
  decide

/-- C6 counterexample: `resolve_relative_url` is not total.  A reference
whose authority contains an unbalanced square bracket makes the underlying
`urlsplit` raise `ValueError: Invalid IPv6 URL`, which `urljoin` (and so
`resolve_relative_url`, which has no handler) propagates; the spec's
"never fails for any string inputs" is false. -/
theorem resolve_unbalanced_bracket_counterexample :
    resolve_relative_url "http://a/b" "http://[x" = .error .invalidIPv6 := rfl

/-- C6 amended: for a base URL the parser accepts and a relative reference
that is already an absolute URL (valid per `is_valid_url`: nonempty scheme
and netloc), `resolve_relative_url` returns the reference either exactly
unchanged (different scheme from the base, or a scheme outside
`uses_relative`) or recomposed from its parse (`normalizeUrl`: scheme
lowercased, tab/CR/LF stripped, components reassembled); it does not
resolve it against the base.  `resolve_relative_url` can, however, raise
`ValueError` on URLs with unbalanced brackets in the authority, so it is
not total. -/
theorem resolve_absolute_unchanged_up_to_normalization
    (base rel : String) (b : ParseResult)
    (hb : urlparseCore base.data [] = .ok b)
    (hrel : is_valid_url rel = true) :
    resolve_relative_url base rel = .ok rel ∨
    resolve_relative_url base rel = .ok (normalizeUrl rel) := by
  unfold is_valid_url at hrel
  cases hpr : urlparseCore rel.data [] with
  | error e => rw [hpr] at hrel; simp at hrel
  | ok r =>
    rw [hpr] at hrel
    simp only [Bool.and_eq_true, Bool.not_eq_true', List.isEmpty_eq_false] at hrel
    obtain ⟨hscheme, hnetloc⟩ := hrel
    unfold resolve_relative_url urljoinCore
    by_cases hbase : base.data = []
    · rw [if_pos hbase]
      left
      rfl
    · rw [if_neg hbase]
      by_cases hrelnil : rel.data = []
      · exfalso
        rw [hrelnil] at hpr
        have h0 : urlparseCore [] [] = .ok (⟨[], [], [], [], [], []⟩ : ParseResult) := rfl
        rw [h0] at hpr
        injection hpr with h1
        rw [← h1] at hscheme
        exact hscheme rfl
      · rw [if_neg hrelnil]
        simp only [hb, urlparseCore_default_irrelevant hpr hscheme b.scheme]
        by_cases hne : r.scheme ≠ b.scheme ∨ uses_relative.contains r.scheme = false
        · rw [if_pos hne]
          left
          rfl
        · rw [if_neg hne]
          push_neg at hne
          obtain ⟨hsame, hcont⟩ := hne
          have hcont2 : uses_relative.contains r.scheme = true := by
            cases hb2 : uses_relative.contains r.scheme with
            | false => exact absurd hb2 hcont
            | true => rfl
          have hmem : r.scheme ∈ uses_relative := List.mem_of_elem_eq_true hcont2
          have hnet : uses_netloc.contains r.scheme = true :=
            List.elem_eq_true_of_mem (uses_relative_subset_netloc r.scheme hmem)
          rw [if_pos ⟨hnet, hnetloc⟩]
          right
          unfold normalizeUrl
          rw [hpr]
          rfl

/-- Witness for C6: a valid absolute reference with a scheme different
from the base comes back exactly unchanged. -/
theorem resolve_absolute_unchanged_witness :
    is_valid_url "https://x/y" = true ∧
    (resolve_relative_url "http://a/b" "https://x/y" = .ok "https://x/y" ∨
     resolve_relative_url "http://a/b" "https://x/y" = .ok (normalizeUrl "https://x/y")) :=
  ⟨by decide,
   resolve_absolute_unchanged_up_to_normalization "http://a/b" "https://x/y" _ rfl (by decide)⟩

theorem beforeFirst_eq_self {d : Char} {l : List Char} (h : d ∉ l) :
    beforeFirst d l = l := by
  unfold beforeFirst
  rw [List.takeWhile_eq_self_iff]
  intro x hx
  simp only [ne_eq, decide_eq_true_eq]
  exact fun he => h (he ▸ hx)

theorem dropWhile_ne_eq_nil {d : Char} {l : List Char} (h : d ∉ l) :
    List.dropWhile (fun c => decide (c ≠ d)) l = [] := by
  induction l with
  | nil => rfl
  | cons x rest ih =>
    have hx : x ≠ d := fun he => h (he ▸ List.mem_cons_self x rest)
    rw [List.dropWhile_cons, if_pos (by simp [hx])]
    exact ih (fun hm => h (List.mem_cons_of_mem x hm))

theorem afterFirst_eq_nil {d : Char} {l : List Char} (h : d ∉ l) :
    afterFirst d l = [] := by
  unfold afterFirst
  rw [dropWhile_ne_eq_nil h]
  rfl

theorem takeWhile_ne_eq_self {d : Char} {l : List Char} (h : d ∉ l) :
    List.takeWhile (fun c => decide (c ≠ d)) l = l := by
  rw [List.takeWhile_eq_self_iff]
  intro x hx
  simp only [decide_eq_true_eq]
  exact fun he => h (he ▸ hx)

theorem beforeFirst_append_cons {d : Char} {a t : List Char} (h : d ∉ a) :
    beforeFirst d (a ++ d :: t) = a := by
  unfold beforeFirst
  rw [List.takeWhile_append, if_pos (by rw [takeWhile_ne_eq_self h])]
  rw [List.takeWhile_cons, if_neg (by simp)]
  simp

theorem afterFirst_append_cons {d : Char} {a t : List Char} (h : d ∉ a) :
    afterFirst d (a ++ d :: t) = t := by
  unfold afterFirst
  rw [List.dropWhile_append, if_pos (by rw [dropWhile_ne_eq_nil h]; rfl)]
  rw [List.dropWhile_cons, if_neg (by simp)]
  rfl

theorem takeWhile_append_sep {p : Char → Bool} {a : List Char} {sep : Char} {t : List Char}
    (hsep : p sep = false) :
    List.takeWhile p (a ++ sep :: t) = List.takeWhile p a := by
  rw [List.takeWhile_append]
  split_ifs with h
  · have ha : List.takeWhile p a = a :=
      (List.takeWhile_prefix p).eq_of_length h
    rw [List.takeWhile_cons, hsep]
    simp [ha]
  · rfl

theorem dropWhile_append_sep {p : Char → Bool} {a : List Char} {sep : Char} {t : List Char}
    (hsep : p sep = false) :
    List.dropWhile p (a ++ sep :: t) = List.dropWhile p a ++ sep :: t := by
  rw [List.dropWhile_append]
  split_ifs with h
  · rw [List.isEmpty_iff] at h
    rw [h, List.dropWhile_cons, hsep]
    simp
  · rfl

theorem splitScheme_rest_sublist {u s r : List Char} (h : splitScheme u = some (s, r)) :
    r.Sublist u := by
  unfold splitScheme at h
  cases hidx : u.findIdx? (fun c => c = ':') with
  | none => rw [hidx] at h; exact absurd h (by simp)
  | some i =>
    rw [hidx] at h
    dsimp only at h
    split_ifs at h
    injection h with h1
    have h2 : u.drop (i + 1) = r := congrArg Prod.snd h1
    rw [← h2]
    exact List.drop_sublist (i + 1) u

theorem splitScheme_append_sep (u : List Char) (sep : Char) (tail : List Char)
    (hsep : isSchemeChar sep = false) (hsepc : sep ≠ ':') (hne : u ≠ []) :
    splitScheme (u ++ sep :: tail)
      = (splitScheme u).map (fun p => (p.1, p.2 ++ sep :: tail)) := by
  have hheadD : (u ++ sep :: tail).headD ' ' = u.headD ' ' := by
    cases u with
    | nil => exact absurd rfl hne
    | cons c rest => rfl
  unfold splitScheme
  cases hcolon : u.findIdx? (fun c => c = ':') with
  | some i =>
    have hi : i < u.length := (List.findIdx?_eq_some_iff_findIdx_eq.mp hcolon).1
    rw [List.findIdx?_append, hcolon, Option.or_some]
    dsimp only
    rw [List.take_append_of_le_length (Nat.le_of_lt hi), hheadD]
    split_ifs with hcond
    · rw [List.drop_append_of_le_length (by omega)]
      rfl
    · rfl
  | none =>
    rw [List.findIdx?_append, hcolon, Option.none_or]
    cases htail : (sep :: tail).findIdx? (fun c => c = ':') with
    | none => rfl
    | some j =>
      have hj0 : j ≠ 0 := by
        intro he
        subst he
        have h1 := (List.findIdx?_eq_some_iff_findIdx_eq.mp htail).2
        have hlen0 : 0 < (sep :: tail).length := by simp
        have h2 := (List.findIdx_eq hlen0).mp h1
        simp only [List.getElem_cons_zero, decide_eq_true_eq] at h2
        exact hsepc h2.1
      dsimp only [Option.map]
      rw [if_neg]
      case hnc =>
        intro hcond
        obtain ⟨h1, h2, h3⟩ := hcond
        have hsepmem : sep ∈ (u ++ sep :: tail).take (j + u.length) := by
          rw [Nat.add_comm, List.take_append]
          cases j with
          | zero => exact absurd rfl hj0
          | succ j0 =>
            rw [List.take_succ_cons]
            exact List.mem_append_right u (List.mem_cons_self sep _)
        have := List.all_eq_true.mp h3 sep hsepmem
        rw [hsep] at this
        exact Bool.noConfusion this

theorem take2_append_sep {a t : List Char} {sep : Char} (hsep : sep ≠ '/') :
    ((a ++ sep :: t).take 2 = ['/', '/']) ↔ (a.take 2 = ['/', '/']) := by
  match a with
  | [] =>
    simp only [List.nil_append, List.take_succ_cons, List.take_nil]
    constructor
    · intro h
      injection h with h1
      exact absurd h1 hsep
    · intro h
      cases t <;> simp_all
  | [a0] =>
    simp only [List.singleton_append, List.take_succ_cons, List.take_nil]
    constructor
    · intro h
      injection h with h1 h2
      injection h2 with h3
      exact absurd h3 hsep
    · intro h
      injection h with h1 h2
      exact absurd h2 (by simp)
  | a0 :: a1 :: rest =>
    simp only [List.cons_append, List.take_succ_cons, List.take_nil]
    constructor
    · intro h; injection h with h1 h2; injection h2 with h3; simp [h1, h3]
    · intro h; injection h with h1 h2; injection h2 with h3; simp [h1, h3]

/-- Appending `?query#fragment` to a query-free, fragment-free URL tail
only fills in the query and fragment components; scheme, netloc and path
are unchanged (and the bracket ValueError fires identically). -/
theorem urlsplitTail_append_query_fragment (sch b q f : List Char)
    (hqb : '?' ∉ b) (hfb : '#' ∉ b) (hqf : '#' ∉ q) :
    urlsplitTail sch (b ++ '?' :: (q ++ '#' :: f))
      = (urlsplitTail sch b).map (fun s => ⟨s.scheme, s.netloc, s.path, q, f⟩) := by
  unfold urlsplitTail
  by_cases h2 : b.take 2 = ['/', '/']
  · rw [if_pos ((take2_append_sep (by decide)).mpr h2), if_pos h2]
    have hlen2 : 2 ≤ b.length := by
      have := congrArg List.length h2
      simp only [List.length_take, List.length_cons, List.length_nil] at this
      omega
    rw [List.drop_append_of_le_length hlen2]
    have hsepnet : (fun c => !isNetlocEnd c) '?' = false := by decide
    rw [takeWhile_append_sep hsepnet]
    rw [dropWhile_append_sep hsepnet]
    have hsub : (List.dropWhile (fun c => !isNetlocEnd c) (b.drop 2)).Sublist b :=
      (List.dropWhile_sublist _).trans (List.drop_sublist 2 b)
    have hqb2 : '?' ∉ List.dropWhile (fun c => !isNetlocEnd c) (b.drop 2) :=
      fun hx => hqb (List.Sublist.mem hx hsub)
    have hfb2 : '#' ∉ List.dropWhile (fun c => !isNetlocEnd c) (b.drop 2) :=
      fun hx => hfb (List.Sublist.mem hx hsub)
    by_cases hbr : ((((b.drop 2).takeWhile (fun c => !isNetlocEnd c)).contains '[' &&
        !((b.drop 2).takeWhile (fun c => !isNetlocEnd c)).contains ']') ||
       (((b.drop 2).takeWhile (fun c => !isNetlocEnd c)).contains ']' &&
        !((b.drop 2).takeWhile (fun c => !isNetlocEnd c)).contains '[')) = true
    · rw [if_pos hbr, if_pos hbr]; rfl
    · rw [if_neg hbr, if_neg hbr]
      have hassoc : List.dropWhile (fun c => !isNetlocEnd c) (b.drop 2) ++ '?' :: (q ++ '#' :: f)
          = (List.dropWhile (fun c => !isNetlocEnd c) (b.drop 2) ++ '?' :: q) ++ '#' :: f := by
        simp
      have hnh : '#' ∉ List.dropWhile (fun c => !isNetlocEnd c) (b.drop 2) ++ '?' :: q := by
        simp only [List.mem_append, List.mem_cons, not_or]
        exact ⟨hfb2, by simp, hqf⟩
      rw [hassoc, beforeFirst_append_cons hnh, afterFirst_append_cons hnh]
      rw [beforeFirst_append_cons hqb2, afterFirst_append_cons hqb2]
      rw [beforeFirst_eq_self hfb2, beforeFirst_eq_self hqb2,
        afterFirst_eq_nil hqb2, afterFirst_eq_nil hfb2]
      rfl
  · rw [if_neg (fun hx => h2 ((take2_append_sep (by decide)).mp hx)), if_neg h2]
    have hassoc : b ++ '?' :: (q ++ '#' :: f) = (b ++ '?' :: q) ++ '#' :: f := by
      simp
    have hnh : '#' ∉ b ++ '?' :: q := by
      simp only [List.mem_append, List.mem_cons, not_or]
      exact ⟨hfb, by simp, hqf⟩
    rw [hassoc, beforeFirst_append_cons hnh, afterFirst_append_cons hnh]
    rw [beforeFirst_append_cons hqb, afterFirst_append_cons hqb]
    rw [beforeFirst_eq_self hfb, beforeFirst_eq_self hqb,
      afterFirst_eq_nil hqb, afterFirst_eq_nil hfb]
    rfl

theorem dropWhile_eq_self_head_false {p : Char → Bool} {c : Char} {rest : List Char}
    (h : List.dropWhile p (c :: rest) = c :: rest) : p c = false := by
  by_contra hp
  rw [Bool.not_eq_false] at hp
  rw [List.dropWhile_cons, if_pos hp] at h
  have hlen := congrArg List.length h
  have hle : (List.dropWhile p rest).length ≤ rest.length :=
    (List.dropWhile_sublist p).length_le
  simp only [List.length_cons] at hlen
  omega

theorem dropC0Space_append_of_clean {u x : List Char}
    (hdu : dropC0Space u = u) (hne : u ≠ []) :
    dropC0Space (u ++ x) = u ++ x := by
  cases u with
  | nil => exact absurd rfl hne
  | cons c rest =>
    have hc : (fun c0 : Char => decide (c0.toNat ≤ 0x20)) c = false :=
      dropWhile_eq_self_head_false hdu
    unfold dropC0Space
    rw [List.cons_append, List.dropWhile_cons, if_neg (by simp_all)]

theorem removeTabCrLf_append (a b : List Char) :
    removeTabCrLf (a ++ b) = removeTabCrLf a ++ removeTabCrLf b := by
  unfold removeTabCrLf
  exact List.filter_append a b

/-- `urlsplit` of a clean, query-free, fragment-free URL with `?query` and
`#fragment` appended: the query and fragment components are filled in and
everything else — in particular the path — is as for the bare URL. -/
theorem urlsplitCore_append_query_fragment (u q f : List Char)
    (hcu : removeTabCrLf u = u) (hdu : dropC0Space u = u) (hne : u ≠ [])
    (hq : '?' ∉ u) (hf : '#' ∉ u)
    (hcq : removeTabCrLf q = q) (hqf : '#' ∉ q)
    (hcf : removeTabCrLf f = f) :
    urlsplitCore (u ++ '?' :: (q ++ '#' :: f)) []
      = (urlsplitCore u []).map (fun s => ⟨s.scheme, s.netloc, s.path, q, f⟩) := by
  have hcleanu : removeTabCrLf (dropC0Space u) = u := by rw [hdu, hcu]
  have hx : removeTabCrLf ('?' :: (q ++ '#' :: f)) = '?' :: (q ++ '#' :: f) := by
    rw [show ('?' :: (q ++ '#' :: f)) = ['?'] ++ q ++ ['#'] ++ f by simp]
    rw [removeTabCrLf_append, removeTabCrLf_append, removeTabCrLf_append, hcq, hcf]
    rfl
  have hclean : removeTabCrLf (dropC0Space (u ++ '?' :: (q ++ '#' :: f)))
      = u ++ '?' :: (q ++ '#' :: f) := by
    rw [dropC0Space_append_of_clean hdu hne, removeTabCrLf_append, hcu, hx]
  unfold urlsplitCore
  rw [hclean, hcleanu]
  rw [splitScheme_append_sep u '?' (q ++ '#' :: f) (by decide) (by decide) hne]
  cases hsp : splitScheme u with
  | none =>
    simp only [Option.map_none]
    exact urlsplitTail_append_query_fragment _ u q f hq hf hqf
  | some p =>
    obtain ⟨s, r⟩ := p
    have hrsub := splitScheme_rest_sublist hsp
    simp only [Option.map_some]
    exact urlsplitTail_append_query_fragment s r q f
      (fun hx0 => hq (List.Sublist.mem hx0 hrsub))
      (fun hx0 => hf (List.Sublist.mem hx0 hrsub)) hqf

/-- `urlparse` version: the params split only looks at the scheme and the
path, both unchanged by an appended query and fragment. -/
theorem urlparseCore_append_query_fragment (u q f : List Char)
    (hcu : removeTabCrLf u = u) (hdu : dropC0Space u = u) (hne : u ≠ [])
    (hq : '?' ∉ u) (hf : '#' ∉ u)
    (hcq : removeTabCrLf q = q) (hqf : '#' ∉ q)
    (hcf : removeTabCrLf f = f) :
    urlparseCore (u ++ '?' :: (q ++ '#' :: f)) []
      = (urlparseCore u []).map
          (fun r => ⟨r.scheme, r.netloc, r.path, r.params, q, f⟩) := by
  unfold urlparseCore
  rw [urlsplitCore_append_query_fragment u q f hcu hdu hne hq hf hcq hqf hcf]
  cases hsplit : urlsplitCore u [] with
  | error e => rfl
  | ok s =>
    simp only [Except.map]
    by_cases hc : (uses_params.contains s.scheme && s.path.contains ';') = true
    · rw [if_pos hc, if_pos hc]
    · rw [if_neg hc, if_neg hc]

/-- C10: `check_url_has_extension(url, extensions)` is true iff the
lowercased path component of the parsed URL ends with one of the
extensions (first conjunct), and the result ignores the URL's query and
fragment: appending `?query#fragment` to a clean URL that had neither does
not change the check (second conjunct).  Matching is case-insensitive in
the URL because the path is lowercased before the suffix test. -/
theorem check_url_extension_path_characterization :
    (∀ (url : String) (exts : List String) (r : ParseResult),
       urlparseCore url.data [] = .ok r →
       (check_url_has_extension url exts = .ok true ↔
         ∃ e ∈ exts, e.data.isSuffixOf (lowerAscii r.path) = true)) ∧
    (∀ (u q f : String) (exts : List String),
       removeTabCrLf u.data = u.data → dropC0Space u.data = u.data → u.data ≠ [] →
       '?' ∉ u.data → '#' ∉ u.data →
       removeTabCrLf q.data = q.data → '#' ∉ q.data →
       removeTabCrLf f.data = f.data →
       check_url_has_extension ⟨u.data ++ '?' :: (q.data ++ '#' :: f.data)⟩ exts
         = check_url_has_extension u exts) := by
  constructor
  · intro url exts r hr
    unfold check_url_has_extension
    rw [hr]
    simp only [Except.map]
    constructor
    · intro h
      injection h with h1
      obtain ⟨e0, he0, hsuf⟩ := List.any_eq_true.mp h1
      obtain ⟨e, he, hee⟩ := List.mem_map.mp he0
      exact ⟨e, he, by rw [hee]; exact hsuf⟩
    · intro ⟨e, he, hsuf⟩
      have : (exts.map String.data).any (fun e0 => e0.isSuffixOf (lowerAscii r.path)) = true :=
        List.any_eq_true.mpr ⟨e.data, List.mem_map.mpr ⟨e, he, rfl⟩, hsuf⟩
      rw [this]
  · intro u q f exts hcu hdu hne hq hf hcq hqf hcf
    unfold check_url_has_extension
    rw [show (String.mk (u.data ++ '?' :: (q.data ++ '#' :: f.data))).data
        = u.data ++ '?' :: (q.data ++ '#' :: f.data) from rfl]
    rw [urlparseCore_append_query_fragment u.data q.data f.data hcu hdu hne hq hf hcq hqf hcf]
    cases urlparseCore u.data [] with
    | error e => rfl
    | ok r => rfl

/-- Witness for C10: an uppercase spreadsheet link with query and
fragment.  Both conjuncts are applied at `http://h/Data.XLSX?v=1#top`. -/
theorem check_url_extension_path_characterization_witness :
    check_url_has_extension "http://h/Data.XLSX?v=1#top" [".xls", ".xlsx"] = .ok true ∧
    check_url_has_extension "http://h/Data.XLSX?v=1#top" [".xls", ".xlsx"]
      = check_url_has_extension "http://h/Data.XLSX" [".xls", ".xlsx"] := by
  constructor
  · exact (check_url_extension_path_characterization.1
      "http://h/Data.XLSX?v=1#top" [".xls", ".xlsx"] _ rfl).mpr (by decide)
  · exact (check_url_extension_path_characterization.2
      "http://h/Data.XLSX" "v=1" "top" [".xls", ".xlsx"]
      rfl rfl (by decide) (by decide) (by decide) rfl (by decide) rfl)

theorem getD_range_map {α : Type} (l : List α) (d : α) :
    (List.range l.length).map (fun i => l.getD i d) = l := by
  induction l with
  | nil => rfl
  | cons a t ih =>
    rw [List.length_cons, List.range_succ_eq_map, List.map_cons, List.map_map]
    have h2 : ((fun i => (a :: t).getD i d) ∘ Nat.succ) = (fun i => t.getD i d) := by
      funext i
      rfl
    rw [h2, ih]
    rfl

theorem cellAt_eq_of_getElem {r : List Cell} {i : Nat} (hi : i < r.length) :
    cellAt r i = r[i] := by
  unfold cellAt
  rw [List.getD_eq_getElem?_getD, List.getElem?_eq_getElem hi]
  rfl

theorem cellAt_map_keep {keep : List Nat} {r : List Cell} {i : Nat}
    (hi : i < keep.length) :
    cellAt (keep.map (fun j => cellAt r j)) i = cellAt r keep[i] := by
  unfold cellAt
  rw [List.getD_eq_getElem?_getD, List.getElem?_map,
    List.getElem?_eq_getElem hi]
  rfl

/-- C7: `remove_empty_rows_and_columns` is idempotent on well-formed
tables: dropping all-null rows and then all-null columns leaves every
surviving row with a non-null cell in a surviving column and every
surviving column with a non-null cell in a surviving row, so a second
application removes nothing. -/
theorem remove_empty_rows_and_columns_idempotent (t : Table) (hwf : t.WF) :
    remove_empty_rows_and_columns (remove_empty_rows_and_columns t)
      = remove_empty_rows_and_columns t := by
  simp only [remove_empty_rows_and_columns]
  have hrowlen : ∀ r ∈ t.rows.filter rowNonEmpty, r.length = t.cols.length :=
    fun r hr => hwf r (List.mem_filter.mp hr).1
  have hkeepmem : ∀ j ∈ (List.range t.cols.length).filter
      (colNonEmpty (t.rows.filter rowNonEmpty)),
      j < t.cols.length ∧ colNonEmpty (t.rows.filter rowNonEmpty) j = true := by
    intro j hj
    have h1 := List.mem_filter.mp hj
    exact ⟨List.mem_range.mp h1.1, h1.2⟩
  set rows1 := t.rows.filter rowNonEmpty with hrows1def
  set keep := (List.range t.cols.length).filter (colNonEmpty rows1) with hkeepdef
  -- every row of the first pass output still has a non-null cell
  have hstepA : ∀ r ∈ rows1, rowNonEmpty (keep.map (fun j => cellAt r j)) = true := by
    intro r hr
    have hne := (List.mem_filter.mp hr).2
    unfold rowNonEmpty at hne ⊢
    obtain ⟨c, hc, hcs⟩ := List.any_eq_true.mp hne
    obtain ⟨i, hi, hci⟩ := List.getElem_of_mem hc
    have hilen : i < t.cols.length := by rw [← hrowlen r hr]; exact hi
    have hcell : cellAt r i = c := by rw [cellAt_eq_of_getElem hi, hci]
    have hcol : colNonEmpty rows1 i = true := by
      unfold colNonEmpty
      exact List.any_eq_true.mpr ⟨r, hr, by rw [hcell]; exact hcs⟩
    have hikeep : i ∈ keep :=
      List.mem_filter.mpr ⟨List.mem_range.mpr hilen, hcol⟩
    exact List.any_eq_true.mpr
      ⟨cellAt r i, List.mem_map.mpr ⟨i, hikeep, rfl⟩, by rw [hcell]; exact hcs⟩
  -- the second row filter removes nothing
  have hrows2 : (rows1.map (fun r => keep.map (fun j => cellAt r j))).filter rowNonEmpty
      = rows1.map (fun r => keep.map (fun j => cellAt r j)) := by
    rw [List.filter_eq_self]
    intro r' hr'
    obtain ⟨r, hr, hre⟩ := List.mem_map.mp hr'
    rw [← hre]
    exact hstepA r hr
  rw [hrows2]
  -- the second column filter keeps every column
  have hkeep2 : (List.range (keep.map (fun j => t.cols.getD j "")).length).filter
      (colNonEmpty (rows1.map (fun r => keep.map (fun j => cellAt r j))))
      = List.range keep.length := by
    rw [List.length_map]
    rw [List.filter_eq_self]
    intro i hi
    have hilt : i < keep.length := List.mem_range.mp hi
    have hj := hkeepmem keep[i] (List.getElem_mem hilt)
    unfold colNonEmpty at hj ⊢
    obtain ⟨r, hr, hrs⟩ := List.any_eq_true.mp hj.2
    apply List.any_eq_true.mpr
    refine ⟨keep.map (fun j => cellAt r j), List.mem_map.mpr ⟨r, hr, rfl⟩, ?_⟩
    rw [cellAt_map_keep hilt]
    exact hrs
  rw [hkeep2]
  -- recomposing with all indices is the identity
  congr 1
  · rw [← List.length_map keep (fun j => t.cols.getD j "")]
    exact getD_range_map _ ""
  · have hid : ∀ r' ∈ rows1.map (fun r => keep.map (fun j => cellAt r j)),
        (List.range keep.length).map (fun j => cellAt r' j) = r' := by
      intro r' hr'
      obtain ⟨r, hr, hre⟩ := List.mem_map.mp hr'
      have hlen : r'.length = keep.length := by rw [← hre, List.length_map]
      rw [← hlen]
      exact getD_range_map r' none
    rw [List.map_congr_left hid]
    simp

/-- Witness for C7 at a concrete table with an all-null row and an
all-null column. -/
theorem remove_empty_rows_and_columns_idempotent_witness :
    remove_empty_rows_and_columns (remove_empty_rows_and_columns
      ⟨["a", "b", "c"], [[none, some "1", none], [none, none, none]]⟩)
      = remove_empty_rows_and_columns
          ⟨["a", "b", "c"], [[none, some "1", none], [none, none, none]]⟩ :=
  remove_empty_rows_and_columns_idempotent
    ⟨["a", "b", "c"], [[none, some "1", none], [none, none, none]]⟩
    (by intro r hr; simp only [List.mem_cons, List.not_mem_nil, or_false] at hr
        rcases hr with rfl | rfl <;> rfl)

theorem insertLe_perm {α : Type} (le : α → α → Bool) (a : α) (l : List α) :
    (insertLe le a l).Perm (a :: l) := by
  induction l with
  | nil => exact List.Perm.refl _
  | cons b rest ih =>
    rw [insertLe]
    by_cases hab : le a b = true
    · rw [if_pos hab]
    · rw [if_neg hab]
      exact (List.Perm.cons b ih).trans (List.Perm.swap a b rest)

theorem insertionSort_perm {α : Type} (le : α → α → Bool) (l : List α) :
    (insertionSort le l).Perm l := by
  induction l with
  | nil => exact List.Perm.refl _
  | cons a rest ih =>
    rw [insertionSort]
    exact (insertLe_perm le a (insertionSort le rest)).trans (List.Perm.cons a ih)

theorem pairwise_insertLe {α : Type} {le : α → α → Bool}
    (htot : ∀ a b, le a b = true ∨ le b a = true)
    (htrans : ∀ a b c, le a b = true → le b c = true → le a c = true)
    (a : α) {l : List α} (hl : List.Pairwise (fun x y => le x y = true) l) :
    List.Pairwise (fun x y => le x y = true) (insertLe le a l) := by
  induction l with
  | nil => simp [insertLe]
  | cons b rest ih =>
    rw [insertLe]
    rcases List.pairwise_cons.mp hl with ⟨hb, hrest⟩
    by_cases hab : le a b = true
    · rw [if_pos hab]
      apply List.pairwise_cons.mpr
      refine ⟨?_, hl⟩
      intro x hx
      rcases List.mem_cons.mp hx with rfl | hxm
      · exact hab
      · exact htrans a b x hab (hb x hxm)
    · rw [if_neg hab]
      apply List.pairwise_cons.mpr
      refine ⟨?_, ih hrest⟩
      intro x hx
      rcases List.mem_cons.mp ((insertLe_perm le a rest).mem_iff.mp hx) with rfl | hxm
      · rcases htot x b with h | h
        · exact absurd h hab
        · exact h
      · exact hb x hxm

theorem pairwise_insertionSort {α : Type} {le : α → α → Bool}
    (htot : ∀ a b, le a b = true ∨ le b a = true)
    (htrans : ∀ a b c, le a b = true → le b c = true → le a c = true)
    (l : List α) :
    List.Pairwise (fun x y => le x y = true) (insertionSort le l) := by
  induction l with
  | nil => exact List.Pairwise.nil
  | cons a rest ih =>
    rw [insertionSort]
    exact pairwise_insertLe htot htrans a ih

theorem charListLe_total : ∀ (a b : List Char), charListLe a b = true ∨ charListLe b a = true
  | [], _ => Or.inl rfl
  | _ :: _, [] => Or.inr rfl
  | a :: as, b :: bs => by
    by_cases hab : a = b
    · subst hab
      rcases charListLe_total as bs with h | h
      · left; rw [charListLe, if_pos rfl]; exact h
      · right; rw [charListLe, if_pos rfl]; exact h
    · rcases Nat.lt_trichotomy a.toNat b.toNat with h | h | h
      · left; rw [charListLe, if_neg hab]; exact decide_eq_true h
      · exact absurd (Char.ext (UInt32.ext h)) hab
      · right; rw [charListLe, if_neg (fun he => hab he.symm)]; exact decide_eq_true h

theorem charListLe_trans : ∀ (a b c : List Char), charListLe a b = true →
    charListLe b c = true → charListLe a c = true
  | [], _, _, _, _ => rfl
  | _ :: _, [], _, h1, _ => Bool.noConfusion h1
  | _ :: _, _ :: _, [], _, h2 => Bool.noConfusion h2
  | a :: as, b :: bs, c :: cs, h1, h2 => by
    by_cases hab : a = b <;> by_cases hbc : b = c
    · subst hab; subst hbc
      rw [charListLe, if_pos rfl] at h1 h2 ⊢
      exact charListLe_trans as bs cs h1 h2
    · subst hab
      rw [charListLe, if_neg hbc] at h2 ⊢
      exact h2
    · subst hbc
      rw [charListLe, if_neg hab] at h1 ⊢
      exact h1
    · rw [charListLe, if_neg hab] at h1
      rw [charListLe, if_neg hbc] at h2
      have hlt := Nat.lt_trans (of_decide_eq_true h1) (of_decide_eq_true h2)
      have hac : a ≠ c := fun he => by
        rw [he] at hlt
        exact Nat.lt_irrefl _ hlt
      rw [charListLe, if_neg hac]
      exact decide_eq_true hlt

theorem charListLe_antisymm : ∀ (a b : List Char), charListLe a b = true →
    charListLe b a = true → a = b
  | [], [], _, _ => rfl
  | [], _ :: _, _, h2 => Bool.noConfusion h2
  | _ :: _, [], h1, _ => Bool.noConfusion h1
  | a :: as, b :: bs, h1, h2 => by
    by_cases hab : a = b
    · subst hab
      rw [charListLe, if_pos rfl] at h1 h2
      rw [charListLe_antisymm as bs h1 h2]
    · rw [charListLe, if_neg hab] at h1
      rw [charListLe, if_neg (fun he => hab he.symm)] at h2
      have := Nat.lt_trans (of_decide_eq_true h1) (of_decide_eq_true h2)
      exact absurd this (Nat.lt_irrefl _)

theorem cellLe_total (a b : Cell) : cellLe a b = true ∨ cellLe b a = true := by
  match a, b with
  | none, none => left; rfl
  | none, some y => right; rfl
  | some x, none => left; rfl
  | some x, some y => exact charListLe_total x.data y.data

theorem cellLe_trans (a b c : Cell) (h1 : cellLe a b = true) (h2 : cellLe b c = true) :
    cellLe a c = true := by
  match a, b, c with
  | none, none, none => rfl
  | none, none, some z => exact Bool.noConfusion h2
  | none, some y, _ => exact Bool.noConfusion h1
  | some x, none, none => rfl
  | some x, none, some z => exact Bool.noConfusion h2
  | some x, some y, none => rfl
  | some x, some y, some z => exact charListLe_trans x.data y.data z.data h1 h2

theorem cellLe_antisymm (a b : Cell) (h1 : cellLe a b = true) (h2 : cellLe b a = true) :
    a = b := by
  match a, b with
  | none, none => rfl
  | none, some y => exact Bool.noConfusion h1
  | some x, none => exact Bool.noConfusion h2
  | some x, some y =>
    have hd : x.data = y.data := charListLe_antisymm x.data y.data h1 h2
    exact congrArg (fun l => some (String.mk l)) hd

theorem dropDupBySeen_keys_nodup (j : Nat) (rows : List (List Cell)) (seen : List Cell) :
    ((dropDupBySeen j rows seen).map (fun r => cellAt r j)).Nodup ∧
    ∀ c ∈ (dropDupBySeen j rows seen).map (fun r => cellAt r j), c ∉ seen := by
  induction rows generalizing seen with
  | nil =>
    refine ⟨List.nodup_nil, ?_⟩
    intro c hc
    simp only [dropDupBySeen, List.map_nil, List.not_mem_nil] at hc
  | cons r rest ih =>
    rw [dropDupBySeen]
    by_cases hc : seen.contains (cellAt r j) = true
    · rw [if_pos hc]
      exact ih seen
    · rw [if_neg hc]
      obtain ⟨hnodup, hnotseen⟩ := ih (cellAt r j :: seen)
      rw [List.map_cons]
      constructor
      · rw [List.nodup_cons]
        refine ⟨fun hmem => ?_, hnodup⟩
        exact (hnotseen _ hmem) (List.mem_cons_self _ _)
      · intro c hcmem hcseen
        rcases List.mem_cons.mp hcmem with rfl | hcm
        · exact hc (List.elem_eq_true_of_mem hcseen)
        · exact (hnotseen c hcm) (List.mem_cons_of_mem _ hcseen)

/-- C9: for every input accepted by `transform_nationalities_data`, the
`codigo_pais` column of the output is strictly increasing: the validation
step drops duplicate codes keeping the first occurrence, and the final
`sort_values` orders the remaining unique codes ascending (nulls last). -/
theorem transform_nationalities_codes_strictly_increasing
    (t : Table) (now : String) (t' : Table)
    (h : transform_nationalities_data t now = .ok t') :
    List.Pairwise (fun a b => cellLt a b = true) (t'.column "codigo_pais") := by
  unfold transform_nationalities_data at h
  cases hclean : clean_nationality_data t now with
  | error e => rw [hclean] at h; exact absurd h (by simp)
  | ok t1 =>
    simp only [hclean] at h
    cases hval : validate_nationality_data t1 with
    | error e => rw [hval] at h; exact absurd h (by simp)
    | ok t2 =>
      simp only [hval] at h
      injection h with h1
      -- extract the dedup from validate
      unfold validate_nationality_data at hval
      split_ifs at hval with hreq
      injection hval with hval1
      have hmemcol : "codigo_pais" ∈ t1.cols := by
        have := List.all_eq_true.mp hreq "codigo_pais" (by simp)
        exact List.mem_of_elem_eq_true this
      obtain ⟨j, hj⟩ := colIdx_of_mem hmemcol
      rw [← hval1] at h1
      unfold Table.dropDupBy at h1
      rw [hj] at h1
      unfold Table.sortValuesBy at h1
      simp only [Table.colIdx] at h1
      rw [show List.findIdx? (fun c => c = "codigo_pais") t1.cols = some j from hj] at h1
      rw [← h1]
      unfold Table.column
      simp only [Table.colIdx]
      rw [show List.findIdx? (fun c => c = "codigo_pais") t1.cols = some j from hj]
      -- keys of the deduped rows are nodup, and sorting permutes rows
      have hnodup : ((dropDupBySeen j t1.rows []).map (fun r => cellAt r j)).Nodup :=
        (dropDupBySeen_keys_nodup j t1.rows []).1
      have hperm : ((insertionSort (fun r s => cellLe (cellAt r j) (cellAt s j))
          (dropDupBySeen j t1.rows [])).map (fun r => cellAt r j)).Perm
          ((dropDupBySeen j t1.rows []).map (fun r => cellAt r j)) :=
        (insertionSort_perm _ _).map _
      have hnodup2 := (List.Perm.nodup_iff hperm).mpr hnodup
      have hsortedmap : List.Pairwise (fun a b => cellLe a b = true)
          ((insertionSort (fun r s => cellLe (cellAt r j) (cellAt s j))
            (dropDupBySeen j t1.rows [])).map (fun r => cellAt r j)) :=
        List.pairwise_map.mpr
          (pairwise_insertionSort
            (fun a b => cellLe_total (cellAt a j) (cellAt b j))
            (fun a b c h1 h2 => cellLe_trans _ _ _ h1 h2)
            (dropDupBySeen j t1.rows []))
      have hcombined := List.Pairwise.and hsortedmap hnodup2
      apply hcombined.imp
      intro a b hab
      obtain ⟨hle, hne⟩ := hab
      unfold cellLt
      rw [hle]
      cases hba : cellLe b a with
      | false => rfl
      | true => exact absurd (cellLe_antisymm a b hle hba) hne

/-- Witness for C9 at a concrete raw table with whitespace, a duplicate
code and an all-null row. -/
theorem transform_nationalities_codes_strictly_increasing_witness :
    List.Pairwise (fun a b => cellLt a b = true)
      (Table.column
        ⟨["codigo_pais", "pais", "fecha_procesamiento", "fuente"],
         [[some "005", some "Y", some "T0", some NATIONALITIES_BASE_URL],
          [some "023", some "X", some "T0", some NATIONALITIES_BASE_URL]]⟩
        "codigo_pais") :=
  transform_nationalities_codes_strictly_increasing
    ⟨["codigo_pais", "pais"],
     [[some " 23 ", some "X"], [some "5", some "Y"], [some "23", some "Z"], [none, none]]⟩
    "T0" _ (by rfl)

end NomPipeline
